import Mathlib

/-!
Shallow embedding of the casino OCR frame pipeline
(src/real_time_ocr.py, src/database_handler.py, main.py).

Strings are modelled as lists of characters, Python floats as rationals.
All amounts the parser can produce are decimals with at most two
fractional digits; for such values the IEEE-double comparisons performed
by the source coincide with exact rational comparisons, so the rational
model is faithful on every reachable value.  The regex digit class is
modelled as the ASCII digits.
-/

unseal Rat.add Rat.mul Rat.inv

/-- Character data of a string literal. -/
def chars (s : String) : List Char := s.data

/-- The three currency symbols kept by the cleaning step and accepted by
the extraction patterns. -/
def isCurrency (c : Char) : Bool := c = '$' || c = '€' || c = '£'

/-- Characters that survive the cleaning step: digits, period, comma and
the currency symbols (the source substitutes everything else away). -/
def keepChar (c : Char) : Bool := c.isDigit || c = '.' || c = ',' || isCurrency c

/-- Cleaning step of parse_prize_amount: remove every character that is
not a digit, period, comma or currency symbol. -/
def cleanText (l : List Char) : List Char := l.filter keepChar

/-- Greedy consumption of at most n leading digits, returning the digits
taken and the rest of the input.  Models the greedy one-to-three digit
part at the head of the grouped-digits capture group. -/
def takeDigitsUpTo : Nat → List Char → List Char × List Char
  | 0, l => ([], l)
  | _ + 1, [] => ([], [])
  | n + 1, c :: rest =>
    if c.isDigit then
      let p := takeDigitsUpTo n rest
      (c :: p.1, p.2)
    else ([], c :: rest)

/-- Greedy consumption of repeated comma-plus-three-digit groups, as in
the grouped-digits capture group.  Each repetition consumes a comma and
exactly three digits; the scan stops at the first position where that
shape is absent. -/
def takeCommaGroups : List Char → List Char × List Char
  | c :: d1 :: d2 :: d3 :: rest =>
    if c = ',' ∧ d1.isDigit ∧ d2.isDigit ∧ d3.isDigit then
      let p := takeCommaGroups rest
      (c :: d1 :: d2 :: d3 :: p.1, p.2)
    else ([], c :: d1 :: d2 :: d3 :: rest)
  | l => ([], l)

/-- Optional decimal tail: a period followed by exactly two digits, or
nothing. -/
def takeDecimal : List Char → List Char
  | c :: d1 :: d2 :: _ =>
    if c = '.' ∧ d1.isDigit ∧ d2.isDigit then [c, d1, d2] else []
  | _ => []

/-- The capture group shared by the first two extraction patterns: one to
three digits, then comma groups, then an optional two-digit decimal,
matched greedily at the start of the input (callers guarantee the input
starts with a digit).  Greedy matching needs no backtracking here because
every part after the leading digits is optional. -/
def groupA (l : List Char) : List Char :=
  let p1 := takeDigitsUpTo 3 l
  let p2 := takeCommaGroups p1.2
  p1.1 ++ p2.1 ++ takeDecimal p2.2

/-- The capture group of the third extraction pattern: one or more digits
then an optional two-digit decimal, matched greedily at the start of the
input. -/
def groupB (l : List Char) : List Char :=
  l.takeWhile Char.isDigit ++ takeDecimal (l.dropWhile Char.isDigit)

/-- First findall match of the first extraction pattern: an optional
currency symbol followed by the grouped-digits capture group.  The scan
runs left to right; a position matches exactly when it carries a digit,
or a currency symbol immediately followed by a digit, and the capture
group then starts at that digit.  Only the first match is ever used by
the source, so only it is computed. -/
def firstMatchP1 : List Char → Option (List Char)
  | [] => none
  | c :: rest =>
    if isCurrency c then
      match rest with
      | [] => none
      | d :: _ => if d.isDigit then some (groupA rest) else firstMatchP1 rest
    else if c.isDigit then some (groupA (c :: rest))
    else firstMatchP1 rest

/-- First findall match of the second extraction pattern: the
grouped-digits capture group followed by an optional currency symbol.
The trailing optional symbol never affects the captured text, so a
position matches exactly when it carries a digit. -/
def firstMatchP2 : List Char → Option (List Char)
  | [] => none
  | c :: rest =>
    if c.isDigit then some (groupA (c :: rest)) else firstMatchP2 rest

/-- First findall match of the third extraction pattern: an optional
currency symbol followed by bare digits and an optional two-digit
decimal. -/
def firstMatchP3 : List Char → Option (List Char)
  | [] => none
  | c :: rest =>
    if isCurrency c then
      match rest with
      | [] => none
      | d :: _ => if d.isDigit then some (groupB rest) else firstMatchP3 rest
    else if c.isDigit then some (groupB (c :: rest))
    else firstMatchP3 rest

/-- Comma removal performed on the matched text before float conversion. -/
def removeCommas (l : List Char) : List Char := l.filter (fun c => c ≠ ',')

/-- Numeric value of an ASCII digit character. -/
def charVal (c : Char) : Nat := c.toNat - 48

/-- Value of a digit string read in base ten. -/
def digitsToNat (l : List Char) : Nat := l.foldl (fun n c => 10 * n + charVal c) 0

/-- Python float conversion restricted to the digit strings this parser
produces: a nonempty run of digits optionally followed by a period and a
nonempty run of digits.  Python float accepts further forms, but no
cleaned match reaches them, since every capture group starts with a
digit and its decimal tail is a period plus exactly two digits. -/
def pyFloat (l : List Char) : Option ℚ :=
  let intPart := l.takeWhile Char.isDigit
  let rest := l.dropWhile Char.isDigit
  if intPart = [] then none
  else
    match rest with
    | [] => some (digitsToNat intPart)
    | c :: frac =>
      if c = '.' ∧ frac ≠ [] ∧ frac.all Char.isDigit then
        some ((digitsToNat intPart : ℚ) + (digitsToNat frac : ℚ) / 10 ^ frac.length)
      else none

/-- The pattern loop of parse_prize_amount: for each pattern in order,
compute findall; when there is a match, convert the first match (commas
removed) to a float and return it when it lies in the accepted range;
otherwise, exactly as in the source, fall through to the next pattern
(on a conversion failure via the explicit continue, on an out-of-range
value by simply reaching the end of the loop body). -/
def goPatterns : List (List Char → Option (List Char)) → List Char → Option ℚ
  | [], _ => none
  | p :: rest, clean =>
    match p clean with
    | some m =>
      match pyFloat (removeCommas m) with
      | some amount =>
        if (1 : ℚ) / 100 ≤ amount ∧ amount ≤ 1000000 then some amount
        else goPatterns rest clean
      | none => goPatterns rest clean
    | none => goPatterns rest clean

/-- The ordered pattern list of parse_prize_amount. -/
def patterns : List (List Char → Option (List Char)) :=
  [firstMatchP1, firstMatchP2, firstMatchP3]

/-- parse_prize_amount: clean the text, then run the pattern loop. -/
def parse_prize_amount (text : List Char) : Option ℚ :=
  goPatterns patterns (cleanText text)

/-- Bool form of the accepted amount range, used to state hypotheses that
a witness can discharge by evaluation. -/
def inBounds (a : ℚ) : Bool := decide ((1 : ℚ) / 100 ≤ a) && decide (a ≤ 1000000)

/-- The numeric value a pattern extracts from the cleaned text: the first
findall match, commas removed, converted to a float. -/
def matchValue (p : List Char → Option (List Char)) (clean : List Char) : Option ℚ :=
  match p clean with
  | some m => pyFloat (removeCommas m)
  | none => none

/-- A pattern is passed over by the loop exactly when it has no match,
its first match does not convert, or the converted value is out of
range. -/
def patternRejects (p : List Char → Option (List Char)) (clean : List Char) : Bool :=
  match matchValue p clean with
  | some a => !(inBounds a)
  | none => true

/-- One recognizer detection: a text and a confidence, as consumed by the
loop over result lines in process_frame. -/
structure Detection where
  text : List Char
  confidence : ℚ

/-- The per-frame result dictionary built by process_frame. -/
structure ExtractionResult where
  machine_id : String
  timestamp : ℚ
  prize_amount : Option ℚ
  confidence : ℚ
  raw_text : List Detection
  status : List Char

/-- Body of the detection loop in process_frame, acting on the pair of
current best amount and best confidence.  The source guards with the
Python truthiness of the parsed amount (not None and nonzero) and with
the condition that the best is still None or the new confidence is
strictly greater. -/
def stepDetection (threshold : ℚ) (acc : Option ℚ × ℚ) (d : Detection) : Option ℚ × ℚ :=
  if threshold ≤ d.confidence then
    match parse_prize_amount d.text with
    | some a =>
      if a ≠ 0 ∧ (acc.1 = none ∨ acc.2 < d.confidence) then (some a, d.confidence)
      else acc
    | none => acc
  else acc

/-- process_frame.  Cropping, normalizing and recognition are external
effects; their combined outcome is passed in as either the recognized
detection list or the message of the exception some stage raised.  The
success path folds the detection loop from the initial dictionary values
(amount None, confidence 0) and then rewrites the placeholder status; the
exception path builds the error dictionary of the handler. -/
def process_frame (threshold : ℚ) (machine_id : String) (ts : ℚ)
    (ocr : Except (List Char) (List Detection)) : ExtractionResult :=
  match ocr with
  | Except.error e =>
    { machine_id := machine_id, timestamp := ts, prize_amount := none,
      confidence := 0, raw_text := [], status := chars ("error: ") ++ e }
  | Except.ok dets =>
    let best := dets.foldl (stepDetection threshold) (none, 0)
    { machine_id := machine_id, timestamp := ts, prize_amount := best.1,
      confidence := best.2, raw_text := dets,
      status := if best.1.isSome then chars ("success") else chars ("no_prize_found") }

/-- Modelled from the spec, section 4.5 Result Classifier: initialize
best amount empty and best confidence 0; for each detection in emission
order, skip it when its confidence is below the configured threshold;
otherwise attempt the Amount Parser on its text; if it yields an amount,
and the current best is empty or this confidence is strictly greater
than the current best confidence, replace best amount and confidence. -/
def specStep (threshold : ℚ) (acc : Option ℚ × ℚ) (d : Detection) : Option ℚ × ℚ :=
  if d.confidence < threshold then acc
  else
    match parse_prize_amount d.text with
    | some a =>
      if acc.1 = none ∨ acc.2 < d.confidence then (some a, d.confidence) else acc
    | none => acc

/-- Modelled from the spec, section 4.5 Result Classifier: the scan of
the detections in emission order from empty best amount and confidence
zero. -/
def classifierSpec (threshold : ℚ) (dets : List Detection) : Option ℚ × ℚ :=
  dets.foldl (specStep threshold) (none, 0)

/-- Python slicing with nonnegative indices, as applied by NumPy basic
indexing to one axis: the elements with index at least a and below b,
silently clamped to the array, never a failure. -/
def pySlice (a b : Nat) (l : List α) : List α := (l.drop a).take (b - a)

/-- extract_roi: return image sliced to rows y1 to y2 and columns x1 to
x2.  NumPy basic slicing clamps out-of-range bounds and never raises, so
the result is always returned; the Except layer records that the caller
treats the call as fallible. -/
def extract_roi (x1 y1 x2 y2 : Nat) (image : List (List α)) :
    Except (List Char) (List (List α)) :=
  Except.ok ((pySlice y1 y2 image).map (pySlice x1 x2))

/-- One row of the slot_machine_prizes table. -/
structure PrizeRow where
  prize_amount : ℚ
  confidence : ℚ
  detected_at : ℚ

/-- The persistence store: rows keyed uniquely by machine identifier. -/
abbrev Store := List (String × PrizeRow)

/-- update_prize: the upsert the INSERT ... ON CONFLICT (machine_id) DO
UPDATE statement performs, replacing the row of an existing key and
inserting a fresh row otherwise. -/
def update_prize (store : Store) (machine_id : String) (row : PrizeRow) : Store :=
  match store with
  | [] => [(machine_id, row)]
  | (k, v) :: rest =>
    if k = machine_id then (machine_id, row) :: rest
    else (k, v) :: update_prize rest machine_id row

/-- The upsert calls update_database issues for one result: exactly one
when the status is success and the amount is not None, none otherwise. -/
def update_database_calls (r : ExtractionResult) : List (String × PrizeRow) :=
  if r.status = chars ("success") then
    match r.prize_amount with
    | some a => [(r.machine_id, ⟨a, r.confidence, r.timestamp⟩)]
    | none => []
  else []

/-- update_database: apply the issued upsert calls to the store. -/
def update_database (store : Store) (r : ExtractionResult) : Store :=
  (update_database_calls r).foldl (fun s kv => update_prize s kv.1 kv.2) store

/-- The upsert calls the main loop causes for one frame result: it
invokes update_database only when the status is success. -/
def mainFrameCalls (r : ExtractionResult) : List (String × PrizeRow) :=
  if r.status = chars ("success") then update_database_calls r else []

/-- The main loop effect of one frame result on the store. -/
def mainFramePersist (store : Store) (r : ExtractionResult) : Store :=
  if r.status = chars ("success") then update_database store r else store

/-- Digit character of a value below ten. -/
def digitChar (d : Nat) : Char := Char.ofNat (48 + d)

/-- Base-ten digits of a natural number, fuel-driven so that it both
computes by kernel reduction and is stated by structural recursion. -/
def natDigitsAux : Nat → Nat → List Char
  | 0, _ => []
  | fuel + 1, n =>
    if n < 10 then [digitChar n]
    else natDigitsAux fuel (n / 10) ++ [digitChar (n % 10)]

/-- Base-ten digits of a natural number. -/
def natDigits (n : Nat) : List Char := natDigitsAux (n + 1) n

/-- Two-digit zero-padded rendering of a value below one hundred. -/
def twoDigits (f : Nat) : List Char := [digitChar (f / 10), digitChar (f % 10)]

/-- Modelled from the spec, section 8, and the display format string of
main.py: the decimal rendering of an amount with exactly two fractional
digits and no grouping separators. -/
def formatAmount (a : ℚ) : List Char :=
  let n := (100 * a).floor.toNat
  natDigits (n / 100) ++ '.' :: twoDigits (n % 100)

/-! Projection equations of process_frame on both outcomes. -/

lemma pf_ok_amount (threshold : ℚ) (mid : String) (ts : ℚ) (dets : List Detection) :
    (process_frame threshold mid ts (Except.ok dets)).prize_amount =
      (dets.foldl (stepDetection threshold) (none, 0)).1 := rfl

lemma pf_ok_confidence (threshold : ℚ) (mid : String) (ts : ℚ) (dets : List Detection) :
    (process_frame threshold mid ts (Except.ok dets)).confidence =
      (dets.foldl (stepDetection threshold) (none, 0)).2 := rfl

lemma pf_ok_raw (threshold : ℚ) (mid : String) (ts : ℚ) (dets : List Detection) :
    (process_frame threshold mid ts (Except.ok dets)).raw_text = dets := rfl

lemma pf_ok_status (threshold : ℚ) (mid : String) (ts : ℚ) (dets : List Detection) :
    (process_frame threshold mid ts (Except.ok dets)).status =
      if (dets.foldl (stepDetection threshold) (none, 0)).1.isSome then chars ("success")
      else chars ("no_prize_found") := rfl

lemma pf_err_amount (threshold : ℚ) (mid : String) (ts : ℚ) (e : List Char) :
    (process_frame threshold mid ts (Except.error e)).prize_amount = none := rfl

lemma pf_err_confidence (threshold : ℚ) (mid : String) (ts : ℚ) (e : List Char) :
    (process_frame threshold mid ts (Except.error e)).confidence = 0 := rfl

lemma pf_err_status (threshold : ℚ) (mid : String) (ts : ℚ) (e : List Char) :
    (process_frame threshold mid ts (Except.error e)).status = chars ("error: ") ++ e := rfl

/-- Lists with different heads are different. -/
lemma ne_of_head (a b : Char) (l1 l2 : List Char) (h : a ≠ b) : a :: l1 ≠ b :: l2 := by
  intro he
  injection he with h1 _
  exact h h1

/-- The error status can never be the success status. -/
lemma error_status_ne_success (e : List Char) : chars ("error: ") ++ e ≠ chars ("success") :=
  ne_of_head 'e' 's' (chars ("rror: ") ++ e) (chars ("uccess")) (by decide)

/-- The error status can never be the processing placeholder. -/
lemma error_status_ne_processing (e : List Char) : chars ("error: ") ++ e ≠ chars ("processing") :=
  ne_of_head 'e' 'p' (chars ("rror: ") ++ e) (chars ("rocessing")) (by decide)

/-- Every amount the pattern loop returns lies in the accepted range. -/
lemma goPatterns_bounds :
    ∀ (ps : List (List Char → Option (List Char))) (clean : List Char) (a : ℚ),
      goPatterns ps clean = some a → (1 : ℚ) / 100 ≤ a ∧ a ≤ 1000000 := by
  intro ps
  induction ps with
  | nil => intro clean a h; exact absurd h (by simp [goPatterns])
  | cons p rest ih =>
    intro clean a h
    unfold goPatterns at h
    split at h
    · split at h
      · split at h
        next hb =>
          injection h with h'
          exact h' ▸ hb
        next hb => exact ih clean a h
      · exact ih clean a h
    · exact ih clean a h

/-- Every amount parse_prize_amount returns lies in the accepted range. -/
lemma parse_bounds {text : List Char} {a : ℚ} (h : parse_prize_amount text = some a) :
    (1 : ℚ) / 100 ≤ a ∧ a ≤ 1000000 :=
  goPatterns_bounds patterns (cleanText text) a h

/-- parse_prize_amount never returns zero, so the Python truthiness test
on its result agrees with the test against None. -/
lemma parse_ne_zero {text : List Char} {a : ℚ} (h : parse_prize_amount text = some a) :
    a ≠ 0 := by
  have hb := (parse_bounds h).1
  intro h0
  rw [h0] at hb
  exact absurd hb (by decide)

/-- Claim C4: for every frame and machine identifier, the result of
process_frame has status success exactly when its prize amount is not
None. -/
theorem claim_C4 (threshold : ℚ) (mid : String) (ts : ℚ)
    (ocr : Except (List Char) (List Detection)) :
    (process_frame threshold mid ts ocr).status = chars ("success") ↔
      (process_frame threshold mid ts ocr).prize_amount ≠ none := by
  cases ocr with
  | error e =>
    rw [pf_err_status, pf_err_amount]
    exact iff_of_false (error_status_ne_success e) (not_not_intro rfl)
  | ok dets =>
    rw [pf_ok_status, pf_ok_amount]
    cases hb : (dets.foldl (stepDetection threshold) (none, 0)).1 with
    | none => exact iff_of_false (by decide) (not_not_intro rfl)
    | some a => exact iff_of_true rfl (by simp)

/-- Claim C5: when any pipeline stage raises, process_frame returns (and
does not propagate) a result whose status starts with error:, whose
confidence is 0 and whose prize amount is None. -/
theorem claim_C5 (threshold : ℚ) (mid : String) (ts : ℚ) (e : List Char) :
    (∃ t, (process_frame threshold mid ts (Except.error e)).status = chars ("error:") ++ t) ∧
      (process_frame threshold mid ts (Except.error e)).confidence = 0 ∧
      (process_frame threshold mid ts (Except.error e)).prize_amount = none :=
  ⟨⟨' ' :: e, rfl⟩, rfl, rfl⟩

/-- Claim C9: every returned status is success, no_prize_found, or an
error: message, and the internal processing placeholder never escapes. -/
theorem claim_C9 (threshold : ℚ) (mid : String) (ts : ℚ)
    (ocr : Except (List Char) (List Detection)) :
    ((process_frame threshold mid ts ocr).status = chars ("success") ∨
      (process_frame threshold mid ts ocr).status = chars ("no_prize_found") ∨
      ∃ t, (process_frame threshold mid ts ocr).status = chars ("error:") ++ t) ∧
      (process_frame threshold mid ts ocr).status ≠ chars ("processing") := by
  cases ocr with
  | error e =>
    rw [pf_err_status]
    exact ⟨Or.inr (Or.inr ⟨' ' :: e, rfl⟩), error_status_ne_processing e⟩
  | ok dets =>
    rw [pf_ok_status]
    cases hb : (dets.foldl (stepDetection threshold) (none, 0)).1.isSome with
    | true => exact ⟨Or.inl (by decide), by decide⟩
    | false => exact ⟨Or.inr (Or.inl (by decide)), by decide⟩

/-- Claim C8: for every result whose status is not success, no upsert is
issued (neither by the main loop gate nor by update_database itself) and
the store is unchanged. -/
theorem claim_C8 (store : Store) (r : ExtractionResult)
    (h : r.status ≠ chars ("success")) :
    update_database_calls r = [] ∧ mainFrameCalls r = [] ∧
      update_database store r = store ∧ mainFramePersist store r = store := by
  have hc : update_database_calls r = [] := by
    unfold update_database_calls
    rw [if_neg h]
  refine ⟨hc, ?_, ?_, ?_⟩
  · unfold mainFrameCalls; rw [if_neg h]
  · unfold update_database; rw [hc]; rfl
  · unfold mainFramePersist; rw [if_neg h]

/-- Witness for claim C8 at a concrete non-success result. -/
theorem claim_C8_witness :
    update_database_calls
        ⟨"M7", 0, none, 0, [], chars ("no_prize_found")⟩ = [] ∧
      mainFrameCalls ⟨"M7", 0, none, 0, [], chars ("no_prize_found")⟩ = [] ∧
      update_database [("M7", ⟨5, 1, 0⟩)] ⟨"M7", 0, none, 0, [], chars ("no_prize_found")⟩ =
        [("M7", ⟨5, 1, 0⟩)] ∧
      mainFramePersist [("M7", ⟨5, 1, 0⟩)] ⟨"M7", 0, none, 0, [], chars ("no_prize_found")⟩ =
        [("M7", ⟨5, 1, 0⟩)] :=
  claim_C8 [("M7", ⟨5, 1, 0⟩)] ⟨"M7", 0, none, 0, [], chars ("no_prize_found")⟩ (by decide)

/-- The source loop body and the spec description of the Result
Classifier agree on every accumulator and detection; the only difference
is the Python truthiness guard on the parsed amount, which never bites
because the parser cannot return zero. -/
lemma stepDetection_eq_specStep (t : ℚ) (acc : Option ℚ × ℚ) (d : Detection) :
    stepDetection t acc d = specStep t acc d := by
  unfold stepDetection specStep
  by_cases h1 : t ≤ d.confidence
  · rw [if_pos h1, if_neg (not_lt.mpr h1)]
    split
    next a hp =>
      have ha : a ≠ 0 := parse_ne_zero hp
      by_cases h2 : acc.1 = none ∨ acc.2 < d.confidence
      · rw [if_pos ⟨ha, h2⟩, if_pos h2]
      · rw [if_neg fun hc => h2 hc.2, if_neg h2]
    next hp => rfl
  · rw [if_neg h1, if_pos (not_le.mp h1)]

/-- Claim C1: the best amount and confidence computed by process_frame
are exactly those of the spec scan (skip below threshold, parse, replace
on empty best or strictly greater confidence), and on the tie-break
example the first detection at the shared confidence wins. -/
theorem claim_C1 :
    (∀ (threshold : ℚ) (mid : String) (ts : ℚ) (dets : List Detection),
        (process_frame threshold mid ts (Except.ok dets)).prize_amount =
            (classifierSpec threshold dets).1 ∧
          (process_frame threshold mid ts (Except.ok dets)).confidence =
            (classifierSpec threshold dets).2) ∧
      (process_frame (9 / 10) "M" 0
          (Except.ok [⟨chars ("$10.00"), 9 / 10⟩, ⟨chars ("$20.00"), 9 / 10⟩])).prize_amount =
        some 10 ∧
      (process_frame (9 / 10) "M" 0
          (Except.ok [⟨chars ("$10.00"), 9 / 10⟩, ⟨chars ("$20.00"), 9 / 10⟩])).confidence =
        9 / 10 := by
  refine ⟨?_, by decide, by decide⟩
  intro threshold mid ts dets
  have hf : stepDetection threshold = specStep threshold :=
    funext fun acc => funext fun d => stepDetection_eq_specStep threshold acc d
  rw [pf_ok_amount, pf_ok_confidence, classifierSpec, hf]
  exact ⟨rfl, rfl⟩

/-- Any nonempty best the detection scan produces comes from a detection
of the list whose confidence passed the threshold and whose text parsed
to the best amount, and the best confidence is that detection's. -/
lemma foldl_best (t : ℚ) :
    ∀ (dets : List Detection) (acc : Option ℚ × ℚ),
      dets.foldl (stepDetection t) acc = acc ∨
        ∃ d ∈ dets, ∃ a, t ≤ d.confidence ∧ parse_prize_amount d.text = some a ∧
          dets.foldl (stepDetection t) acc = (some a, d.confidence) := by
  intro dets
  induction dets with
  | nil => intro acc; exact Or.inl rfl
  | cons d rest ih =>
    intro acc
    rw [List.foldl_cons]
    have hstep : stepDetection t acc d = acc ∨
        ∃ a, t ≤ d.confidence ∧ parse_prize_amount d.text = some a ∧
          stepDetection t acc d = (some a, d.confidence) := by
      unfold stepDetection
      by_cases h1 : t ≤ d.confidence
      · rw [if_pos h1]
        split
        next a hp =>
          by_cases h2 : a ≠ 0 ∧ (acc.1 = none ∨ acc.2 < d.confidence)
          · exact Or.inr ⟨a, h1, hp, if_pos h2⟩
          · exact Or.inl (if_neg h2)
        next hp => exact Or.inl rfl
      · rw [if_neg h1]; exact Or.inl rfl
    cases hstep with
    | inl he =>
      rw [he]
      cases ih acc with
      | inl h => exact Or.inl h
      | inr h =>
        obtain ⟨d', hd', a, h3, h4, h5⟩ := h
        exact Or.inr ⟨d', List.mem_cons_of_mem d hd', a, h3, h4, h5⟩
    | inr he =>
      obtain ⟨a, h1, h2, h3⟩ := he
      rw [h3]
      cases ih (some a, d.confidence) with
      | inl h => exact Or.inr ⟨d, List.mem_cons_self d rest, a, h1, h2, h⟩
      | inr h =>
        obtain ⟨d', hd', a', h4, h5, h6⟩ := h
        exact Or.inr ⟨d', List.mem_cons_of_mem d hd', a', h4, h5, h6⟩

/-- Claim C10: whenever process_frame returns a nonempty prize amount,
the returned confidence is the confidence of the recorded detection
whose text parsed to that amount, and it reaches the threshold. -/
theorem claim_C10 (threshold : ℚ) (mid : String) (ts : ℚ)
    (ocr : Except (List Char) (List Detection)) (a : ℚ)
    (h : (process_frame threshold mid ts ocr).prize_amount = some a) :
    ∃ d ∈ (process_frame threshold mid ts ocr).raw_text,
      (process_frame threshold mid ts ocr).confidence = d.confidence ∧
        threshold ≤ d.confidence ∧ parse_prize_amount d.text = some a := by
  cases ocr with
  | error e => exact absurd (pf_err_amount threshold mid ts e ▸ h) (by simp)
  | ok dets =>
    rw [pf_ok_amount] at h
    rw [pf_ok_raw, pf_ok_confidence]
    cases foldl_best threshold dets (none, 0) with
    | inl he => rw [he] at h; exact absurd h (by simp)
    | inr he =>
      obtain ⟨d, hd, a', h1, h2, h3⟩ := he
      rw [h3] at h ⊢
      injection h with h'
      exact ⟨d, hd, rfl, h1, h' ▸ h2⟩

/-- Witness for claim C10 at a concrete successful frame. -/
theorem claim_C10_witness :
    ∃ d ∈ (process_frame (9 / 10) "M" 0
        (Except.ok [⟨chars ("$50.00"), 19 / 20⟩])).raw_text,
      (process_frame (9 / 10) "M" 0
          (Except.ok [⟨chars ("$50.00"), 19 / 20⟩])).confidence = d.confidence ∧
        (9 : ℚ) / 10 ≤ d.confidence ∧ parse_prize_amount d.text = some 50 :=
  claim_C10 (9 / 10) "M" 0 (Except.ok [⟨chars ("$50.00"), 19 / 20⟩]) 50 (by decide)

/-- Claim C6, amended: extract_roi never fails, and on frames large
enough for the configured rectangle it returns exactly the requested
sub-buffer with the requested dimensions; an out-of-bounds rectangle
yields a clamped smaller buffer instead of a failure. -/
theorem claim_C6_amended :
    (∀ (α : Type) (x1 y1 x2 y2 : Nat) (frame : List (List α)),
        ∃ out, extract_roi x1 y1 x2 y2 frame = Except.ok out) ∧
      ∀ (α : Type) (x1 y1 x2 y2 : Nat) (frame : List (List α)),
        x1 ≤ x2 → y1 ≤ y2 → y2 ≤ frame.length → (∀ row ∈ frame, x2 ≤ row.length) →
          ∃ out, extract_roi x1 y1 x2 y2 frame = Except.ok out ∧
            out = (pySlice y1 y2 frame).map (pySlice x1 x2) ∧
            out.length = y2 - y1 ∧ ∀ row ∈ out, row.length = x2 - x1 := by
  constructor
  · intro α x1 y1 x2 y2 frame
    exact ⟨(pySlice y1 y2 frame).map (pySlice x1 x2), rfl⟩
  · intro α x1 y1 x2 y2 frame hx hy hrows hcols
    refine ⟨(pySlice y1 y2 frame).map (pySlice x1 x2), rfl, rfl, ?_, ?_⟩
    · rw [List.length_map]
      unfold pySlice
      rw [List.length_take, List.length_drop]
      omega
    · intro row hrow
      obtain ⟨r, hr, hmap⟩ := List.mem_map.mp hrow
      have hrf : r ∈ frame := by
        have hsub : List.Sublist (pySlice y1 y2 frame) frame :=
          (List.take_sublist _ _).trans (List.drop_sublist _ _)
        exact hsub.subset hr
      have hlen : x2 ≤ r.length := hcols r hrf
      rw [← hmap]
      unfold pySlice
      rw [List.length_take, List.length_drop]
      omega

/-- Witness for the amended claim C6 at a concrete in-bounds rectangle. -/
theorem claim_C6_witness :
    ∃ out, extract_roi 0 0 2 2 [[(1 : Nat), 2], [3, 4]] = Except.ok out ∧
      out = (pySlice 0 2 [[(1 : Nat), 2], [3, 4]]).map (pySlice 0 2) ∧
      out.length = 2 - 0 ∧ ∀ row ∈ out, row.length = 2 - 0 :=
  claim_C6_amended.2 Nat 0 0 2 2 [[(1 : Nat), 2], [3, 4]]
    (by decide) (by decide) (by decide) (by decide)

/-- Counterexample to claim C6 as stated: the rectangle (0,0,5,5) lies
outside the two-row frame, yet extract_roi does not fail; it returns the
clamped two-by-two buffer. -/
theorem claim_C6_counterexample :
    extract_roi 0 0 5 5 [[(0 : Nat), 0], [0, 0]] = Except.ok [[0, 0], [0, 0]] ∧
      ([[(0 : Nat), 0], [0, 0]] : List (List Nat)).length < 5 :=
  ⟨rfl, by decide⟩

/-- Bool and Prop forms of the accepted range agree. -/
lemma inBounds_iff (a : ℚ) : inBounds a = true ↔ (1 : ℚ) / 100 ≤ a ∧ a ≤ 1000000 := by
  unfold inBounds
  rw [Bool.and_eq_true, decide_eq_true_eq, decide_eq_true_eq]

/-- A rejected pattern leaves the pattern loop unchanged. -/
lemma goPatterns_cons_rejected (p : List Char → Option (List Char))
    (ps : List (List Char → Option (List Char))) (clean : List Char)
    (h : patternRejects p clean = true) :
    goPatterns (p :: ps) clean = goPatterns ps clean := by
  cases hm : p clean with
  | none => simp only [goPatterns, hm]
  | some m =>
    cases hv : pyFloat (removeCommas m) with
    | none => simp only [goPatterns, hm, hv]
    | some v =>
      unfold patternRejects matchValue at h
      simp only [hm, hv] at h
      have hnb : ¬((1 : ℚ) / 100 ≤ v ∧ v ≤ 1000000) := by
        intro hc
        rw [(inBounds_iff v).mpr hc] at h
        exact absurd h (by decide)
      simp only [goPatterns, hm, hv]
      rw [if_neg hnb]

/-- One unfolding step of the pattern loop: either the head pattern
yields the in-range result, or it is rejected and the rest decides. -/
lemma goPatterns_cons_cases (p : List Char → Option (List Char))
    (ps : List (List Char → Option (List Char))) (clean : List Char) (a : ℚ)
    (h : goPatterns (p :: ps) clean = some a) :
    (matchValue p clean = some a ∧ inBounds a = true) ∨
      (patternRejects p clean = true ∧ goPatterns ps clean = some a) := by
  unfold goPatterns at h
  cases hm : p clean with
  | none =>
    simp only [hm] at h
    exact Or.inr ⟨by unfold patternRejects matchValue; simp only [hm], h⟩
  | some m =>
    cases hv : pyFloat (removeCommas m) with
    | none =>
      simp only [hm, hv] at h
      exact Or.inr ⟨by unfold patternRejects matchValue; simp only [hm, hv], h⟩
    | some v =>
      simp only [hm, hv] at h
      by_cases hb : (1 : ℚ) / 100 ≤ v ∧ v ≤ 1000000
      · rw [if_pos hb] at h
        injection h with h'
        subst h'
        refine Or.inl ⟨?_, (inBounds_iff _).mpr hb⟩
        unfold matchValue
        simp only [hm, hv]
      · rw [if_neg hb] at h
        refine Or.inr ⟨?_, h⟩
        unfold patternRejects matchValue
        simp only [hm, hv]
        rw [Bool.not_eq_true']
        exact Bool.eq_false_iff.mpr fun hc => hb ((inBounds_iff v).mp hc)

/-- Claim C2, amended: parse_prize_amount returns empty exactly when
every pattern is passed over (no match, no conversion, or an
out-of-range value); an out-of-range value from an earlier pattern
causes fallback to later patterns instead of rejection, so the input
with value 2,000,000.00 is reparsed by the loose third pattern as 2. -/
theorem claim_C2_amended :
    (∀ text : List Char,
        patternRejects firstMatchP1 (cleanText text) = true →
        patternRejects firstMatchP2 (cleanText text) = true →
        patternRejects firstMatchP3 (cleanText text) = true →
        parse_prize_amount text = none) ∧
      parse_prize_amount (chars ("$2,000,000.00")) = some 2 := by
  refine ⟨?_, by decide⟩
  intro text h1 h2 h3
  unfold parse_prize_amount patterns
  rw [goPatterns_cons_rejected _ _ _ h1, goPatterns_cons_rejected _ _ _ h2,
    goPatterns_cons_rejected _ _ _ h3]
  rfl

/-- Witness for the amended claim C2 at an input every pattern rejects. -/
theorem claim_C2_witness : parse_prize_amount (chars ("0.00")) = none :=
  claim_C2_amended.1 (chars ("0.00")) (by decide) (by decide) (by decide)

/-- Counterexample to claim C2 as stated: for the input with value
2,000,000.00, above the upper bound, the parser does not return empty. -/
theorem claim_C2_counterexample :
    parse_prize_amount (chars ("$2,000,000.00")) ≠ none ∧
      parse_prize_amount (chars ("$2,000,000.00")) = some 2 :=
  ⟨by decide, by decide⟩

/-- Claim C3, amended: the three patterns are applied in order and the
loop stops at the first pattern whose first match converts to an
in-range value; a pattern whose first match is absent, unconvertible or
out of range is passed over; the returned amount is always the converted
first match of the pattern the loop stopped at. -/
theorem claim_C3_amended (text : List Char) (a : ℚ)
    (h : parse_prize_amount text = some a) :
    inBounds a = true ∧
      (matchValue firstMatchP1 (cleanText text) = some a ∨
        (patternRejects firstMatchP1 (cleanText text) = true ∧
          matchValue firstMatchP2 (cleanText text) = some a) ∨
        (patternRejects firstMatchP1 (cleanText text) = true ∧
          patternRejects firstMatchP2 (cleanText text) = true ∧
          matchValue firstMatchP3 (cleanText text) = some a)) := by
  unfold parse_prize_amount patterns at h
  cases goPatterns_cons_cases _ _ _ _ h with
  | inl h1 => exact ⟨h1.2, Or.inl h1.1⟩
  | inr h1 =>
    obtain ⟨r1, h'⟩ := h1
    cases goPatterns_cons_cases _ _ _ _ h' with
    | inl h2 => exact ⟨h2.2, Or.inr (Or.inl ⟨r1, h2.1⟩)⟩
    | inr h2 =>
      obtain ⟨r2, h''⟩ := h2
      cases goPatterns_cons_cases _ _ _ _ h'' with
      | inl h3 => exact ⟨h3.2, Or.inr (Or.inr ⟨r1, r2, h3.1⟩)⟩
      | inr h3 => exact absurd h3.2 (by simp [goPatterns])

/-- Witness for the amended claim C3: on the over-bound input the first
two patterns are rejected and the third supplies the result. -/
theorem claim_C3_witness :
    inBounds 2 = true ∧
      (matchValue firstMatchP1 (cleanText (chars ("$2,000,000.00"))) = some 2 ∨
        (patternRejects firstMatchP1 (cleanText (chars ("$2,000,000.00"))) = true ∧
          matchValue firstMatchP2 (cleanText (chars ("$2,000,000.00"))) = some 2) ∨
        (patternRejects firstMatchP1 (cleanText (chars ("$2,000,000.00"))) = true ∧
          patternRejects firstMatchP2 (cleanText (chars ("$2,000,000.00"))) = true ∧
          matchValue firstMatchP3 (cleanText (chars ("$2,000,000.00"))) = some 2)) :=
  claim_C3_amended (chars ("$2,000,000.00")) 2 (by decide)

/-- Counterexample to claim C3 as stated: on the over-bound input the
first pattern does match, with converted first match 2000000, yet the
returned amount is 2, taken from a later pattern. -/
theorem claim_C3_counterexample :
    matchValue firstMatchP1 (cleanText (chars ("$2,000,000.00"))) = some 2000000 ∧
      parse_prize_amount (chars ("$2,000,000.00")) = some 2 ∧ (2 : ℚ) ≠ 2000000 :=
  ⟨by decide, by decide, by decide⟩

/-! Support for claim C7: structure of the capture groups and the
round trip through the two-decimal rendering. -/

lemma charVal_digitChar {d : Nat} (h : d < 10) : charVal (digitChar d) = d := by
  interval_cases d <;> decide

lemma isDigit_digitChar {d : Nat} (h : d < 10) : (digitChar d).isDigit = true := by
  interval_cases d <;> decide

lemma digit_not_currency {c : Char} (h : c.isDigit = true) : isCurrency c = false := by
  unfold isCurrency
  have h1 : c ≠ '$' := fun he => by rw [he] at h; exact absurd h (by decide)
  have h2 : c ≠ '€' := fun he => by rw [he] at h; exact absurd h (by decide)
  have h3 : c ≠ '£' := fun he => by rw [he] at h; exact absurd h (by decide)
  simp [h1, h2, h3]

lemma digit_ne_comma {c : Char} (h : c.isDigit = true) : c ≠ ',' :=
  fun he => by rw [he] at h; exact absurd h (by decide)

lemma keepChar_digit {c : Char} (h : c.isDigit = true) : keepChar c = true := by
  unfold keepChar
  rw [h]
  rfl

lemma takeWhile_eq_self_of_all {p : Char → Bool} :
    ∀ {l : List Char}, l.all p = true → l.takeWhile p = l ∧ l.dropWhile p = [] := by
  intro l
  induction l with
  | nil => intro _; exact ⟨rfl, rfl⟩
  | cons c t ih =>
    intro h
    rw [List.all_cons, Bool.and_eq_true] at h
    constructor
    · rw [List.takeWhile_cons, if_pos h.1, (ih h.2).1]
    · rw [List.dropWhile_cons, if_pos h.1, (ih h.2).2]

lemma takeWhile_append_stop {p : Char → Bool} :
    ∀ (xs : List Char) (c : Char) (ys : List Char), xs.all p = true → p c = false →
      (xs ++ c :: ys).takeWhile p = xs ∧ (xs ++ c :: ys).dropWhile p = c :: ys := by
  intro xs
  induction xs with
  | nil =>
    intro c ys _ hc
    constructor
    · rw [List.nil_append, List.takeWhile_cons, if_neg (by simp [hc])]
    · rw [List.nil_append, List.dropWhile_cons, if_neg (by simp [hc])]
  | cons x t ih =>
    intro c ys h hc
    rw [List.all_cons, Bool.and_eq_true] at h
    have hrec := ih c ys h.2 hc
    constructor
    · rw [List.cons_append, List.takeWhile_cons, if_pos h.1, hrec.1]
    · rw [List.cons_append, List.dropWhile_cons, if_pos h.1, hrec.2]

lemma removeCommas_of_all_digits {xs : List Char} (h : xs.all Char.isDigit = true) :
    removeCommas xs = xs := by
  unfold removeCommas
  rw [List.filter_eq_self]
  intro a ha
  rw [List.all_eq_true] at h
  exact decide_eq_true (digit_ne_comma (h a ha))

lemma takeDigitsUpTo_all :
    ∀ (n : Nat) (l : List Char), (takeDigitsUpTo n l).1.all Char.isDigit = true := by
  intro n
  induction n with
  | zero => intro l; rfl
  | succ n ih =>
    intro l
    cases l with
    | nil => rfl
    | cons c t =>
      simp only [takeDigitsUpTo]
      by_cases h : c.isDigit = true
      · rw [if_pos h]
        simp only [List.all_cons, Bool.and_eq_true]
        exact ⟨h, ih t⟩
      · rw [if_neg h]
        rfl

lemma takeDigitsUpTo_eats :
    ∀ (ds : List Char) (n : Nat) (c0 : Char) (rest : List Char),
      ds.length ≤ n → ds.all Char.isDigit = true → c0.isDigit = false →
      takeDigitsUpTo n (ds ++ c0 :: rest) = (ds, c0 :: rest) := by
  intro ds
  induction ds with
  | nil =>
    intro n c0 rest _ _ hc
    cases n with
    | zero => rfl
    | succ n =>
      show takeDigitsUpTo (n + 1) (c0 :: rest) = ([], c0 :: rest)
      simp only [takeDigitsUpTo]
      rw [if_neg (by simp [hc])]
  | cons d t ih =>
    intro n c0 rest hlen hall hc
    rw [List.all_cons, Bool.and_eq_true] at hall
    cases n with
    | zero => exact absurd hlen (by simp)
    | succ n =>
      show takeDigitsUpTo (n + 1) (d :: (t ++ c0 :: rest)) = (d :: t, c0 :: rest)
      simp only [takeDigitsUpTo]
      rw [if_pos hall.1, ih n c0 rest (by simpa using hlen) hall.2 hc]

lemma takeCommaGroups_all :
    ∀ (l : List Char), (takeCommaGroups l).1.all (fun c => c.isDigit || c = ',') = true := by
  have H : ∀ (n : Nat) (l : List Char), l.length ≤ n →
      (takeCommaGroups l).1.all (fun c => c.isDigit || c = ',') = true := by
    intro n
    induction n with
    | zero =>
      intro l h
      have : l = [] := List.eq_nil_of_length_eq_zero (by omega)
      subst this
      rfl
    | succ n ih =>
      intro l hlen
      rcases l with _ | ⟨c, _ | ⟨d1, _ | ⟨d2, _ | ⟨d3, rest⟩⟩⟩⟩
      · rfl
      · rfl
      · rfl
      · rfl
      · simp only [takeCommaGroups]
        by_cases h : c = ',' ∧ d1.isDigit = true ∧ d2.isDigit = true ∧ d3.isDigit = true
        · rw [if_pos h]
          obtain ⟨rfl, hd1, hd2, hd3⟩ := h
          have hr := ih rest (by simp at hlen ⊢; omega)
          simp only [List.all_cons, Bool.and_eq_true]
          refine ⟨by decide, ?_, ?_, ?_, hr⟩ <;> simp [hd1, hd2, hd3]
        · rw [if_neg h]
          rfl
  intro l
  exact H l.length l (le_refl _)

lemma takeDecimal_shape :
    ∀ (l : List Char), takeDecimal l = [] ∨
      ∃ d1 d2, takeDecimal l = ['.', d1, d2] ∧ d1.isDigit = true ∧ d2.isDigit = true := by
  intro l
  rcases l with _ | ⟨c, _ | ⟨d1, _ | ⟨d2, rest⟩⟩⟩
  · exact Or.inl rfl
  · exact Or.inl rfl
  · exact Or.inl rfl
  · simp only [takeDecimal]
    by_cases h : c = '.' ∧ d1.isDigit = true ∧ d2.isDigit = true
    · rw [if_pos h]
      exact Or.inr ⟨d1, d2, by rw [h.1], h.2.1, h.2.2⟩
    · rw [if_neg h]
      exact Or.inl rfl

lemma removeCommas_digit_or_comma {xs : List Char}
    (h : xs.all (fun c => c.isDigit || c = ',') = true) :
    (removeCommas xs).all Char.isDigit = true := by
  rw [List.all_eq_true] at h ⊢
  intro c hc
  unfold removeCommas at hc
  rw [List.mem_filter] at hc
  have h1 := h c hc.1
  have h2 : c ≠ ',' := of_decide_eq_true hc.2
  rw [Bool.or_eq_true] at h1
  cases h1 with
  | inl h1 => exact h1
  | inr h1 => exact absurd (of_decide_eq_true h1) h2

lemma removeCommas_takeDecimal (l : List Char) :
    removeCommas (takeDecimal l) = takeDecimal l := by
  cases takeDecimal_shape l with
  | inl h => rw [h]; rfl
  | inr h =>
    obtain ⟨d1, d2, he, h1, h2⟩ := h
    rw [he]
    unfold removeCommas
    rw [List.filter_eq_self]
    intro a ha
    simp only [List.mem_cons, List.not_mem_nil, or_false] at ha
    rcases ha with rfl | rfl | rfl
    · exact by decide
    · exact decide_eq_true (digit_ne_comma h1)
    · exact decide_eq_true (digit_ne_comma h2)

lemma groupA_struct (d : Char) (l : List Char) (hd : d.isDigit = true) :
    ∃ DS DEC, removeCommas (groupA (d :: l)) = DS ++ DEC ∧ DS ≠ [] ∧
      DS.all Char.isDigit = true ∧
      (DEC = [] ∨ ∃ d1 d2, DEC = ['.', d1, d2] ∧ d1.isDigit = true ∧ d2.isDigit = true) := by
  have hhead : takeDigitsUpTo 3 (d :: l) =
      (d :: (takeDigitsUpTo 2 l).1, (takeDigitsUpTo 2 l).2) := by
    show (if d.isDigit then
        (d :: (takeDigitsUpTo 2 l).1, (takeDigitsUpTo 2 l).2)
      else ([], d :: l)) = _
    rw [if_pos hd]
  refine ⟨(takeDigitsUpTo 3 (d :: l)).1 ++
      removeCommas (takeCommaGroups (takeDigitsUpTo 3 (d :: l)).2).1,
    takeDecimal (takeCommaGroups (takeDigitsUpTo 3 (d :: l)).2).2, ?_, ?_, ?_, ?_⟩
  · unfold groupA removeCommas
    rw [List.filter_append, List.filter_append]
    have e1 : (takeDigitsUpTo 3 (d :: l)).1.filter (fun c => c ≠ ',') =
        (takeDigitsUpTo 3 (d :: l)).1 :=
      removeCommas_of_all_digits (takeDigitsUpTo_all 3 (d :: l))
    have e3 := removeCommas_takeDecimal (takeCommaGroups (takeDigitsUpTo 3 (d :: l)).2).2
    unfold removeCommas at e3
    rw [e1, e3, List.append_assoc]
  · rw [hhead]
    simp
  · rw [List.all_append, Bool.and_eq_true]
    exact ⟨takeDigitsUpTo_all 3 (d :: l),
      removeCommas_digit_or_comma (takeCommaGroups_all (takeDigitsUpTo 3 (d :: l)).2)⟩
  · exact takeDecimal_shape _

lemma groupB_struct (d : Char) (l : List Char) (hd : d.isDigit = true) :
    ∃ DS DEC, removeCommas (groupB (d :: l)) = DS ++ DEC ∧ DS ≠ [] ∧
      DS.all Char.isDigit = true ∧
      (DEC = [] ∨ ∃ d1 d2, DEC = ['.', d1, d2] ∧ d1.isDigit = true ∧ d2.isDigit = true) := by
  refine ⟨(d :: l).takeWhile Char.isDigit, takeDecimal ((d :: l).dropWhile Char.isDigit),
    ?_, ?_, ?_, takeDecimal_shape _⟩
  · unfold groupB removeCommas
    rw [List.filter_append]
    have e1 : ((d :: l).takeWhile Char.isDigit).filter (fun c => c ≠ ',') =
        (d :: l).takeWhile Char.isDigit :=
      removeCommas_of_all_digits List.all_takeWhile
    have e2 := removeCommas_takeDecimal ((d :: l).dropWhile Char.isDigit)
    unfold removeCommas at e2
    rw [e1, e2]
  · rw [List.takeWhile_cons, if_pos hd]
    simp
  · exact List.all_takeWhile

lemma pyFloat_digits {DS : List Char} (hne : DS ≠ []) (hall : DS.all Char.isDigit = true) :
    pyFloat DS = some ((digitsToNat DS : ℚ)) := by
  unfold pyFloat
  rw [(takeWhile_eq_self_of_all hall).1, (takeWhile_eq_self_of_all hall).2, if_neg hne]

lemma pyFloat_two_dec {DS : List Char} {d1 d2 : Char} (hne : DS ≠ [])
    (hall : DS.all Char.isDigit = true) (h1 : d1.isDigit = true) (h2 : d2.isDigit = true) :
    pyFloat (DS ++ ['.', d1, d2]) =
      some ((digitsToNat DS : ℚ) + (digitsToNat [d1, d2] : ℚ) / 100) := by
  unfold pyFloat
  have hw := takeWhile_append_stop DS '.' [d1, d2] hall (by decide)
  rw [hw.1, hw.2, if_neg hne]
  show (if ('.' : Char) = '.' ∧ ([d1, d2] : List Char) ≠ [] ∧
        ([d1, d2] : List Char).all Char.isDigit then
      some ((digitsToNat DS : ℚ) +
        (digitsToNat [d1, d2] : ℚ) / 10 ^ ([d1, d2] : List Char).length)
    else none) = some ((digitsToNat DS : ℚ) + (digitsToNat [d1, d2] : ℚ) / 100)
  rw [if_pos ⟨rfl, by simp, by simp [h1, h2]⟩]
  norm_num

lemma pyFloat_DS_DEC {DS DEC : List Char} (hne : DS ≠ [])
    (hall : DS.all Char.isDigit = true)
    (hdec : DEC = [] ∨ ∃ d1 d2, DEC = ['.', d1, d2] ∧ d1.isDigit = true ∧ d2.isDigit = true)
    {v : ℚ} (hv : pyFloat (DS ++ DEC) = some v) : ∃ k : Nat, v = (k : ℚ) / 100 := by
  cases hdec with
  | inl h =>
    subst h
    rw [List.append_nil, pyFloat_digits hne hall] at hv
    injection hv with h'
    refine ⟨100 * digitsToNat DS, ?_⟩
    rw [← h']
    push_cast
    field_simp
  | inr h =>
    obtain ⟨d1, d2, rfl, h1, h2⟩ := h
    rw [pyFloat_two_dec hne hall h1 h2] at hv
    injection hv with h'
    refine ⟨100 * digitsToNat DS + digitsToNat [d1, d2], ?_⟩
    rw [← h']
    push_cast
    field_simp
    ring

lemma firstMatchP1_struct :
    ∀ (l m : List Char), firstMatchP1 l = some m →
      ∃ d t, d.isDigit = true ∧ m = groupA (d :: t) := by
  intro l
  induction l with
  | nil => intro m h; exact absurd h (by simp [firstMatchP1])
  | cons c rest ih =>
    intro m h
    unfold firstMatchP1 at h
    split at h
    · split at h
      · exact absurd h (by simp)
      · split at h
        next d r hd =>
          injection h with h'
          exact ⟨d, r, hd, h'.symm⟩
        next d r hd => exact ih m h
    · split at h
      next hd =>
        injection h with h'
        exact ⟨c, rest, hd, h'.symm⟩
      next hd => exact ih m h

lemma firstMatchP2_struct :
    ∀ (l m : List Char), firstMatchP2 l = some m →
      ∃ d t, d.isDigit = true ∧ m = groupA (d :: t) := by
  intro l
  induction l with
  | nil => intro m h; exact absurd h (by simp [firstMatchP2])
  | cons c rest ih =>
    intro m h
    unfold firstMatchP2 at h
    split at h
    next hd =>
      injection h with h'
      exact ⟨c, rest, hd, h'.symm⟩
    next hd => exact ih m h

lemma firstMatchP3_struct :
    ∀ (l m : List Char), firstMatchP3 l = some m →
      ∃ d t, d.isDigit = true ∧ m = groupB (d :: t) := by
  intro l
  induction l with
  | nil => intro m h; exact absurd h (by simp [firstMatchP3])
  | cons c rest ih =>
    intro m h
    unfold firstMatchP3 at h
    split at h
    · split at h
      · exact absurd h (by simp)
      · split at h
        next d r hd =>
          injection h with h'
          exact ⟨d, r, hd, h'.symm⟩
        next d r hd => exact ih m h
    · split at h
      next hd =>
        injection h with h'
        exact ⟨c, rest, hd, h'.symm⟩
      next hd => exact ih m h

lemma goPatterns_mem_value :
    ∀ (ps : List (List Char → Option (List Char))) (clean : List Char) (a : ℚ),
      goPatterns ps clean = some a → ∃ p ∈ ps, matchValue p clean = some a := by
  intro ps
  induction ps with
  | nil => intro clean a h; exact absurd h (by simp [goPatterns])
  | cons p rest ih =>
    intro clean a h
    cases goPatterns_cons_cases p rest clean a h with
    | inl h1 => exact ⟨p, List.mem_cons_self p rest, h1.1⟩
    | inr h1 =>
      obtain ⟨p', hp', hv⟩ := ih clean a h1.2
      exact ⟨p', List.mem_cons_of_mem p hp', hv⟩

/-- Every amount parse_prize_amount returns is a whole number of cents:
each capture group is digits, comma groups and an optional two-digit
decimal, so its converted value is an integer multiple of one
hundredth. -/
lemma parse_form {text : List Char} {a : ℚ} (h : parse_prize_amount text = some a) :
    ∃ k : Nat, a = (k : ℚ) / 100 := by
  unfold parse_prize_amount at h
  obtain ⟨p, hp, hval⟩ := goPatterns_mem_value patterns (cleanText text) a h
  cases hm : p (cleanText text) with
  | none =>
    unfold matchValue at hval
    rw [hm] at hval
    exact absurd hval (by simp)
  | some m =>
    have hval' : pyFloat (removeCommas m) = some a := by
      unfold matchValue at hval
      rw [hm] at hval
      exact hval
    have hstruct : ∃ d t, d.isDigit = true ∧
        (m = groupA (d :: t) ∨ m = groupB (d :: t)) := by
      unfold patterns at hp
      simp only [List.mem_cons, List.not_mem_nil, or_false] at hp
      rcases hp with rfl | rfl | rfl
      · obtain ⟨d, t, hd, he⟩ := firstMatchP1_struct _ m hm
        exact ⟨d, t, hd, Or.inl he⟩
      · obtain ⟨d, t, hd, he⟩ := firstMatchP2_struct _ m hm
        exact ⟨d, t, hd, Or.inl he⟩
      · obtain ⟨d, t, hd, he⟩ := firstMatchP3_struct _ m hm
        exact ⟨d, t, hd, Or.inr he⟩
    obtain ⟨d, t, hd, hcase⟩ := hstruct
    cases hcase with
    | inl he =>
      subst he
      obtain ⟨DS, DEC, hsplit, hne, hall, hdec⟩ := groupA_struct d t hd
      rw [hsplit] at hval'
      exact pyFloat_DS_DEC hne hall hdec hval'
    | inr he =>
      subst he
      obtain ⟨DS, DEC, hsplit, hne, hall, hdec⟩ := groupB_struct d t hd
      rw [hsplit] at hval'
      exact pyFloat_DS_DEC hne hall hdec hval'

lemma natDigitsAux_small {f n : Nat} (hf : 1 ≤ f) (h : n < 10) :
    natDigitsAux f n = [digitChar n] := by
  obtain ⟨g, rfl⟩ : ∃ g, f = g + 1 := ⟨f - 1, by omega⟩
  simp only [natDigitsAux]
  rw [if_pos h]

lemma natDigitsAux_mid {f n : Nat} (hf : 2 ≤ f) (h1 : 10 ≤ n) (h2 : n < 100) :
    natDigitsAux f n = [digitChar (n / 10), digitChar (n % 10)] := by
  obtain ⟨g, rfl⟩ : ∃ g, f = g + 1 := ⟨f - 1, by omega⟩
  simp only [natDigitsAux]
  rw [if_neg (by omega), natDigitsAux_small (by omega) (by omega)]
  rfl

lemma natDigitsAux_big {f n : Nat} (hf : 3 ≤ f) (h1 : 100 ≤ n) (h2 : n < 1000) :
    natDigitsAux f n = [digitChar (n / 100), digitChar (n / 10 % 10), digitChar (n % 10)] := by
  obtain ⟨g, rfl⟩ : ∃ g, f = g + 1 := ⟨f - 1, by omega⟩
  simp only [natDigitsAux]
  rw [if_neg (by omega), natDigitsAux_mid (by omega) (by omega) (by omega)]
  rw [Nat.div_div_eq_div_mul]
  rfl

/-- For renderable integer parts (below one thousand) the digit string is
nonempty, at most three digits long, all digits, and reads back to the
same number. -/
lemma natDigits_facts {q : Nat} (h : q < 1000) :
    natDigits q ≠ [] ∧ (natDigits q).all Char.isDigit = true ∧
      (natDigits q).length ≤ 3 ∧ digitsToNat (natDigits q) = q := by
  by_cases h1 : q < 10
  · have e : natDigits q = [digitChar q] := by
      unfold natDigits
      exact natDigitsAux_small (by omega) h1
    rw [e]
    refine ⟨by simp, ?_, by simp, ?_⟩
    · simp [List.all_cons, isDigit_digitChar h1]
    · simp [digitsToNat, charVal_digitChar h1]
  · by_cases h2 : q < 100
    · have e : natDigits q = [digitChar (q / 10), digitChar (q % 10)] := by
        unfold natDigits
        exact natDigitsAux_mid (by omega) (by omega) h2
      rw [e]
      refine ⟨by simp, ?_, by simp, ?_⟩
      · simp [List.all_cons, isDigit_digitChar (show q / 10 < 10 by omega),
          isDigit_digitChar (show q % 10 < 10 by omega)]
      · simp [digitsToNat, charVal_digitChar (show q / 10 < 10 by omega),
          charVal_digitChar (show q % 10 < 10 by omega)]
        omega
    · have e : natDigits q =
          [digitChar (q / 100), digitChar (q / 10 % 10), digitChar (q % 10)] := by
        unfold natDigits
        exact natDigitsAux_big (by omega) (by omega) h
      rw [e]
      refine ⟨by simp, ?_, by simp, ?_⟩
      · simp [List.all_cons, isDigit_digitChar (show q / 100 < 10 by omega),
          isDigit_digitChar (show q / 10 % 10 < 10 by omega),
          isDigit_digitChar (show q % 10 < 10 by omega)]
      · simp [digitsToNat, charVal_digitChar (show q / 100 < 10 by omega),
          charVal_digitChar (show q / 10 % 10 < 10 by omega),
          charVal_digitChar (show q % 10 < 10 by omega)]
        omega

/-- The head pattern accepts when its first match converts to an
in-range value. -/
lemma goPatterns_head_accept {p : List Char → Option (List Char)}
    {ps : List (List Char → Option (List Char))} {clean m : List Char} {v : ℚ}
    (hm : p clean = some m) (hv : pyFloat (removeCommas m) = some v)
    (hb : (1 : ℚ) / 100 ≤ v ∧ v ≤ 1000000) : goPatterns (p :: ps) clean = some v := by
  unfold goPatterns
  simp only [hm, hv]
  rw [if_pos hb]

/-- Round trip: a digit string of at most three digits followed by a
two-digit decimal tail is parsed back exactly, because the cleaned text
is unchanged and the first pattern consumes all of it. -/
lemma parse_format (DS : List Char) (f : Nat) (hne : DS ≠ [])
    (hall : DS.all Char.isDigit = true) (hlen : DS.length ≤ 3) (hf : f < 100)
    (hlo : (1 : ℚ) / 100 ≤ (digitsToNat DS : ℚ) + (f : ℚ) / 100)
    (hhi : (digitsToNat DS : ℚ) + (f : ℚ) / 100 ≤ 1000000) :
    parse_prize_amount (DS ++ '.' :: twoDigits f) =
      some ((digitsToNat DS : ℚ) + (f : ℚ) / 100) := by
  have hc1 : (digitChar (f / 10)).isDigit = true := isDigit_digitChar (by omega)
  have hc2 : (digitChar (f % 10)).isDigit = true := isDigit_digitChar (by omega)
  have htwo : twoDigits f = [digitChar (f / 10), digitChar (f % 10)] := rfl
  obtain ⟨d, t, rfl⟩ : ∃ d t, DS = d :: t := by
    cases DS with
    | nil => exact absurd rfl hne
    | cons d t => exact ⟨d, t, rfl⟩
  have hd : d.isDigit = true := by
    rw [List.all_cons, Bool.and_eq_true] at hall
    exact hall.1
  have hclean : cleanText ((d :: t) ++ '.' :: twoDigits f) =
      (d :: t) ++ '.' :: twoDigits f := by
    unfold cleanText
    rw [List.filter_eq_self]
    intro a ha
    rw [List.mem_append] at ha
    cases ha with
    | inl ha => exact keepChar_digit (List.all_eq_true.mp hall a ha)
    | inr ha =>
      rw [htwo] at ha
      simp only [List.mem_cons, List.not_mem_nil, or_false] at ha
      rcases ha with rfl | rfl | rfl
      · decide
      · exact keepChar_digit hc1
      · exact keepChar_digit hc2
  have hgA : groupA ((d :: t) ++ '.' :: twoDigits f) = (d :: t) ++ '.' :: twoDigits f := by
    unfold groupA
    rw [takeDigitsUpTo_eats (d :: t) 3 '.' (twoDigits f) hlen hall (by decide)]
    have e2 : takeCommaGroups ('.' :: twoDigits f) = ([], '.' :: twoDigits f) := rfl
    have e3 : takeDecimal ('.' :: twoDigits f) = '.' :: twoDigits f := by
      rw [htwo]
      show (if ('.' : Char) = '.' ∧ (digitChar (f / 10)).isDigit ∧ (digitChar (f % 10)).isDigit
          then ['.', digitChar (f / 10), digitChar (f % 10)] else []) = _
      rw [if_pos ⟨rfl, hc1, hc2⟩]
    simp only [e2, e3]
    simp
  have hfm : firstMatchP1 ((d :: t) ++ '.' :: twoDigits f) =
      some ((d :: t) ++ '.' :: twoDigits f) := by
    show firstMatchP1 (d :: (t ++ '.' :: twoDigits f)) = _
    unfold firstMatchP1
    rw [if_neg (by simp [digit_not_currency hd]), if_pos hd]
    rw [show d :: (t ++ '.' :: twoDigits f) = (d :: t) ++ '.' :: twoDigits f from rfl, hgA]
  have hrc : removeCommas ((d :: t) ++ '.' :: twoDigits f) =
      (d :: t) ++ '.' :: twoDigits f := by
    unfold removeCommas
    rw [List.filter_eq_self]
    intro a ha
    rw [List.mem_append] at ha
    cases ha with
    | inl ha => exact decide_eq_true (digit_ne_comma (List.all_eq_true.mp hall a ha))
    | inr ha =>
      rw [htwo] at ha
      simp only [List.mem_cons, List.not_mem_nil, or_false] at ha
      rcases ha with rfl | rfl | rfl
      · decide
      · exact decide_eq_true (digit_ne_comma hc1)
      · exact decide_eq_true (digit_ne_comma hc2)
  have hdig : digitsToNat [digitChar (f / 10), digitChar (f % 10)] = f := by
    simp [digitsToNat, charVal_digitChar (show f / 10 < 10 by omega),
      charVal_digitChar (show f % 10 < 10 by omega)]
    omega
  have hval : pyFloat (removeCommas ((d :: t) ++ '.' :: twoDigits f)) =
      some ((digitsToNat (d :: t) : ℚ) + (f : ℚ) / 100) := by
    rw [hrc, htwo]
    rw [show ((d :: t) ++ '.' :: [digitChar (f / 10), digitChar (f % 10)]) =
        (d :: t) ++ ['.', digitChar (f / 10), digitChar (f % 10)] from rfl]
    rw [pyFloat_two_dec (by simp) hall hc1 hc2, hdig]
  unfold parse_prize_amount patterns
  rw [hclean]
  exact goPatterns_head_accept hfm hval ⟨hlo, hhi⟩

/-- Claim C7, amended: the Amount Parser is idempotent on its successful
outputs below 1000 (at most three integer digits): parsing the
two-decimal rendering of such an output yields the same amount.  For
larger outputs the rendering has no grouping commas, the first pattern
captures only the first three integer digits, and idempotence fails. -/
theorem claim_C7_amended (text : List Char) (a : ℚ)
    (hp : parse_prize_amount text = some a) (hsmall : a < 1000) :
    parse_prize_amount (formatAmount a) = some a := by
  obtain ⟨hlo, hhi⟩ := parse_bounds hp
  obtain ⟨k, rfl⟩ := parse_form hp
  have hk1 : 1 ≤ k := by
    by_contra hk
    push_neg at hk
    interval_cases k
    norm_num at hlo
  have hk2 : k < 100000 := by
    by_contra hk
    push_neg at hk
    have h1000 : (1000 : ℚ) ≤ (k : ℚ) / 100 := by
      rw [le_div_iff₀ (by norm_num)]
      calc (1000 : ℚ) * 100 = ((100000 : Nat) : ℚ) := by norm_num
        _ ≤ (k : ℚ) := by exact_mod_cast hk
    exact absurd hsmall (not_lt.mpr h1000)
  have hmul : (100 : ℚ) * ((k : ℚ) / 100) = (k : ℚ) := by
    field_simp
  have hfloor : ((100 : ℚ) * ((k : ℚ) / 100)).floor.toNat = k := by
    rw [hmul]
    rw [show ((k : ℚ)).floor = ⌊(k : ℚ)⌋ from rfl, Int.floor_natCast, Int.toNat_natCast]
  have hformat : formatAmount ((k : ℚ) / 100) =
      natDigits (k / 100) ++ '.' :: twoDigits (k % 100) := by
    unfold formatAmount
    rw [hfloor]
  have hq : k / 100 < 1000 := by omega
  obtain ⟨hne, hall, hlen, hread⟩ := natDigits_facts hq
  have hfmod : k % 100 < 100 := Nat.mod_lt _ (by norm_num)
  have hid : (digitsToNat (natDigits (k / 100)) : ℚ) + ((k % 100 : Nat) : ℚ) / 100 =
      (k : ℚ) / 100 := by
    rw [hread]
    have hsum : (100 * (k / 100) + k % 100 : Nat) = k := by omega
    calc ((k / 100 : Nat) : ℚ) + ((k % 100 : Nat) : ℚ) / 100
        = ((100 * (k / 100) + k % 100 : Nat) : ℚ) / 100 := by push_cast; ring
      _ = (k : ℚ) / 100 := by rw [hsum]
  rw [hformat,
    parse_format (natDigits (k / 100)) (k % 100) hne hall hlen hfmod
      (by rw [hid]; exact hlo) (by rw [hid]; exact hhi),
    hid]

/-- Witness for the amended claim C7: the spec test input 250 parses to
250.00, renders as 250.00, and parses back to the same amount. -/
theorem claim_C7_witness : parse_prize_amount (formatAmount 250) = some 250 :=
  claim_C7_amended (chars ("250")) 250 (by decide) (by decide)

/-- Counterexample to claim C7 as stated: 1,234.56 is a successful parse
output, its two-decimal rendering is 1234.56 (no grouping separators),
and reparsing that rendering yields 123, not 1234.56. -/
theorem claim_C7_counterexample :
    parse_prize_amount (chars ("$1,234.56")) = some (30864 / 25) ∧
      formatAmount (30864 / 25) = chars ("1234.56") ∧
      parse_prize_amount (formatAmount (30864 / 25)) = some 123 ∧
      (123 : ℚ) ≠ 30864 / 25 :=
  ⟨by decide, by decide, by decide, by decide⟩
